import Mathlib

/-!
Verification development for the worldmodel repository.

The repository builds a discrete-state world model from an observation/action
stream by recursively splitting a binary tree of regions.  This file gives a
shallow embedding (in Lean 4) of the bookkeeping core:

* the transition-matrix split primitive and the incremental transition-matrix
  update of `SplitParams._update_transition_matrices` (src/split_params.py),
* the relabeling `SplitParams._init_new_labels` / `_update_labels`,
* the data-reference split `SplitParams._update_dat_refs`,
* the entropy / matrix-entropy / mutual-information primitives of
  `WorldModelTree._entropy`, `_matrix_entropy`, `_mutual_information`
  (src/worldmodel.py),
* `WorldModelTree.add_data` (fresh-model call path, src/worldmodel.py),
* the best-split selection loops of `Partitioning.calc_best_split`
  (src/partitioning.py) and `WorldModelTree.single_splitting_step`
  (src/worldmodel.py),
* the tree classifier `WorldmodelTree.classify` (src/worldmodel_tree.py)
  instantiated with the axis-aligned test of `WorldmodelTrivial`
  (src/worldmodel_methods.py),
* the constructor `Partitioning.__init__` (src/partitioning.py).

Matrices are embedded as functions `Nat → Nat → Nat` (integer count matrices)
together with an explicit size, label vectors as functions `Nat → Nat` over
sample indices `0 .. N-1`, and the action stream as a function `Nat → A` for a
type `A` with decidable equality.  numpy float arithmetic is idealised as real
arithmetic (`ℝ`), with the non-negative weight vectors that entropy consumes
embedded as rational vectors (`List ℚ`).  Python `assert` failures and other
aborts are embedded as `Except.error`.
-/

namespace Worldmodel

/-! ### Transition-matrix split primitive

`SplitParams._update_transition_matrices` (src/split_params.py lines 150-156)
performs, on the current `K × K` matrix of an action:

    new_trans[index_1,:] = 0
    new_trans = np.insert(new_trans, index_1, 0, axis=0)
    new_trans[:,index_1] = 0
    new_trans = np.insert(new_trans, index_1, 0, axis=1)

(`WorldModelTree._split_transition_matrix`, src/worldmodel.py lines 150-157,
is the same sequence.)  We embed the four numpy steps separately and compose
them. -/

/-- Embeds `M[i,:] = 0`: set row `i` of the matrix to zero. -/
def zeroRow (T : Nat → Nat → Nat) (i : Nat) : Nat → Nat → Nat :=
  fun s t => if s = i then 0 else T s t

/-- Embeds `np.insert(M, i, 0, axis=0)`: insert a zero row at position `i`,
shifting rows `i` and beyond down by one. -/
def insertZeroRow (T : Nat → Nat → Nat) (i : Nat) : Nat → Nat → Nat :=
  fun s t => if s = i then 0 else if s < i then T s t else T (s - 1) t

/-- Embeds `M[:,i] = 0`: set column `i` of the matrix to zero. -/
def zeroCol (T : Nat → Nat → Nat) (i : Nat) : Nat → Nat → Nat :=
  fun s t => if t = i then 0 else T s t

/-- Embeds `np.insert(M, i, 0, axis=1)`: insert a zero column at position `i`,
shifting columns `i` and beyond right by one. -/
def insertZeroCol (T : Nat → Nat → Nat) (i : Nat) : Nat → Nat → Nat :=
  fun s t => if t = i then 0 else if t < i then T s t else T s (t - 1)

/-- The combined row/column split primitive exactly as the source performs it:
zero row `i`, insert a zero row at `i`, zero column `i`, insert a zero column
at `i` (src/split_params.py lines 150-156). -/
def splitRowCol (T : Nat → Nat → Nat) (i : Nat) : Nat → Nat → Nat :=
  insertZeroCol (zeroCol (insertZeroRow (zeroRow T i) i) i) i

/-- Index shift used to read a pre-split matrix entry from a post-split
position: positions left of the insertion point are unchanged, positions right
of it are pulled back by one. -/
def unshift (i : Nat) (s : Nat) : Nat :=
  if s < i then s else s - 1

/-- Closed form of `splitRowCol`: rows and columns `i` and `i+1` of the result
are zero, and every other entry is the pre-split entry at the unshifted
position. -/
theorem splitRowCol_eq (T : Nat → Nat → Nat) (i s t : Nat) :
    splitRowCol T i s t =
      if s = i ∨ s = i + 1 ∨ t = i ∨ t = i + 1 then 0
      else T (unshift i s) (unshift i t) := by
  unfold splitRowCol insertZeroCol zeroCol insertZeroRow zeroRow unshift
  split_ifs <;> first
    | rfl
    | omega

/-! ### Labels, recounting and the incremental update

`SplitParams._init_new_labels` (src/split_params.py lines 56-68) shifts every
label above the split leaf's index up by one and marks the leaf's own samples;
`_update_labels` (lines 71-102) then sends each marked sample `i` to
`current_state + test(data[i])`.  We embed the composition, abstracting the
test function composed with the data lookup as `test : Nat → Bool`. -/

/-- New label vector produced by a candidate split of the leaf with index `i1`:
labels above `i1` shift up by one and samples of the leaf go to `i1` or
`i1 + 1` according to the binary test. -/
def splitNewLabels (lab : Nat → Nat) (i1 : Nat) (test : Nat → Bool) : Nat → Nat :=
  fun i =>
    if lab i > i1 then lab i + 1
    else if lab i = i1 then (if test i then i1 + 1 else i1)
    else lab i

/-- Full recount from scratch: entry `(s, t)` is the number of transitions
`(i, i+1)` with `lab i = s`, `lab (i+1) = t` and `act i = a` over the whole
stream of `N` samples (spec section 3, definition of the transition matrix). -/
def recount {A : Type} [DecidableEq A] (N : Nat) (lab : Nat → Nat)
    (act : Nat → A) (a : A) (s t : Nat) : Nat :=
  (List.range (N - 1)).countP
    (fun i => decide (lab i = s ∧ lab (i + 1) = t ∧ act i = a))

/-- Row recomputation of `_update_transition_matrices` (src/split_params.py
lines 158-170): transitions leaving the split leaf, counted over the leaf's
data references with the final sample `N-1` removed. -/
def outCount {A : Type} [DecidableEq A] (newL : Nat → Nat) (act : Nat → A)
    (a : A) (refs : List Nat) (N : Nat) (s t : Nat) : Nat :=
  (refs.filter (fun r => decide (r ≠ N - 1))).countP
    (fun r => decide (newL r = s ∧ newL (r + 1) = t ∧ act r = a))

/-- Column recomputation of `_update_transition_matrices` (src/split_params.py
lines 172-184): transitions entering the split leaf, counted over the leaf's
data references with sample `0` removed. -/
def inCount {A : Type} [DecidableEq A] (newL : Nat → Nat) (act : Nat → A)
    (a : A) (refs : List Nat) (s t : Nat) : Nat :=
  (refs.filter (fun r => decide (r ≠ 0))).countP
    (fun r => decide (newL (r - 1) = s ∧ newL r = t ∧ act (r - 1) = a))

/-- The incremental transition-matrix update of
`SplitParams._update_transition_matrices` (src/split_params.py lines 144-190)
for one action: start from `splitRowCol` of the current matrix at the leaf
index `i1`, then recompute rows `i1`, `i1+1` and columns `i1`, `i1+1` (the
column loop runs after the row loop and overwrites the shared cells; the loops
run over indices `0 .. K` where `K` is the pre-split number of leaves). -/
def updateTransMatrix {A : Type} [DecidableEq A] (T : Nat → Nat → Nat)
    (i1 N K : Nat) (newL : Nat → Nat) (act : Nat → A) (a : A)
    (refs : List Nat) : Nat → Nat → Nat :=
  fun s t =>
    if t = i1 ∧ s < K + 1 then inCount newL act a refs s i1
    else if t = i1 + 1 ∧ s < K + 1 then inCount newL act a refs s (i1 + 1)
    else if s = i1 ∧ t < K + 1 then outCount newL act a refs N i1 t
    else if s = i1 + 1 ∧ t < K + 1 then outCount newL act a refs N (i1 + 1) t
    else splitRowCol T i1 s t

/-- A post-split label equal to `i1` or `i1 + 1` comes exactly from a sample of
the split leaf (old label `i1`). -/
theorem splitNewLabels_mem_iff (lab : Nat → Nat) (i1 : Nat) (test : Nat → Bool)
    (i : Nat) :
    (splitNewLabels lab i1 test i = i1 ∨ splitNewLabels lab i1 test i = i1 + 1)
      ↔ lab i = i1 := by
  unfold splitNewLabels
  by_cases h : test i <;> simp [h] <;> split_ifs <;> omega

/-- For a target label outside the two new leaf indices, the post-split label
is determined by the old label at the unshifted position. -/
theorem splitNewLabels_eq_iff (lab : Nat → Nat) (i1 : Nat) (test : Nat → Bool)
    (i s : Nat) (hs1 : s ≠ i1) (hs2 : s ≠ i1 + 1) :
    splitNewLabels lab i1 test i = s ↔ lab i = unshift i1 s := by
  unfold splitNewLabels unshift
  by_cases h : test i <;> simp [h] <;> split_ifs <;> omega

/-- Counting over the leaf's (duplicate-free) data references equals counting
over the whole index range restricted to samples whose old label is the leaf
index. -/
theorem countP_refs_eq (lab : Nat → Nat) (i1 N : Nat) (refs : List Nat)
    (hnd : refs.Nodup) (hrefs : ∀ r, r ∈ refs ↔ r < N ∧ lab r = i1)
    (p : Nat → Bool) :
    refs.countP p = (List.range N).countP (fun r => decide (lab r = i1) && p r) := by
  have hperm : refs.Perm ((List.range N).filter (fun r => decide (lab r = i1))) := by
    rw [List.perm_ext_iff_of_nodup hnd (List.Nodup.filter _ (List.nodup_range N))]
    intro r
    simp only [List.mem_filter, List.mem_range, decide_eq_true_eq, hrefs r]
  rw [hperm.countP_eq, List.countP_filter]
  refine List.countP_congr (fun r _ => ?_)
  simp only [Bool.and_eq_true]
  tauto

/-- Removing the last sample index from a count over `range N` and dropping the
corresponding guard. -/
theorem countP_range_erase_last (N : Nat) (F : Nat → Bool) :
    (List.range N).countP (fun r => F r && decide (r ≠ N - 1))
      = (List.range (N - 1)).countP F := by
  cases N with
  | zero => simp
  | succ m =>
    have h : List.range (m + 1) = List.range m ++ [m] := List.range_succ m
    rw [h, List.countP_append]
    have h2 : ([m].countP (fun r => F r && decide (r ≠ m + 1 - 1))) = 0 := by
      simp
    rw [h2, Nat.add_zero]
    simp only [Nat.add_sub_cancel]
    refine List.countP_congr (fun r hr => ?_)
    have hr' : r < m := List.mem_range.mp hr
    simp only [Bool.and_eq_true, decide_eq_true_eq]
    constructor
    · exact fun hc => hc.1
    · exact fun hc => ⟨hc, by omega⟩

/-- Removing the first sample index from a count over `range N` turns the
predicate into its shift by one over `range (N - 1)`. -/
theorem countP_range_shift (N : Nat) (p : Nat → Bool) :
    (List.range N).countP (fun r => decide (r ≠ 0) && p r)
      = (List.range (N - 1)).countP (fun i => p (i + 1)) := by
  cases N with
  | zero => simp
  | succ m =>
    rw [List.range_succ_eq_map, List.countP_cons, List.countP_map]
    have h0 : (decide ((0 : Nat) ≠ 0) && p 0) = false := by simp
    rw [h0]
    simp only [if_false, Nat.add_zero, Nat.add_sub_cancel]
    refine List.countP_congr (fun r _ => ?_)
    simp [Function.comp, Nat.succ_ne_zero]

/-- Core refinement lemma: the incremental transition-matrix update of
`SplitParams._update_transition_matrices` agrees, cell for cell on the
`(K+1) × (K+1)` matrix, with a full recount of every transition `(i, i+1)`
under the post-split labels, provided the leaf's data references are exactly
the samples labelled with the leaf index and the pre-split matrix is the
recount under the pre-split labels. -/
theorem updateTrans_eq_recount {A : Type} [DecidableEq A]
    (lab : Nat → Nat) (act : Nat → A) (a : A) (N K i1 : Nat)
    (test : Nat → Bool) (T : Nat → Nat → Nat) (refs : List Nat)
    (hnd : refs.Nodup) (hrefs : ∀ r, r ∈ refs ↔ r < N ∧ lab r = i1)
    (hT : ∀ s t, T s t = recount N lab act a s t) :
    ∀ s t, s < K + 1 → t < K + 1 →
      updateTransMatrix T i1 N K (splitNewLabels lab i1 test) act a refs s t
        = recount N (splitNewLabels lab i1 test) act a s t := by
  intro s t hs ht
  set newL := splitNewLabels lab i1 test with hnewL
  have hInColumn : ∀ t', (t' = i1 ∨ t' = i1 + 1) →
      inCount newL act a refs s t' = recount N newL act a s t' := by
    intro t' ht'
    unfold inCount recount
    rw [List.countP_filter,
      countP_refs_eq lab i1 N refs hnd hrefs]
    have hre : ∀ r ∈ List.range N,
        ((fun r => decide (lab r = i1) &&
          (decide (newL (r - 1) = s ∧ newL r = t' ∧ act (r - 1) = a) &&
            decide (r ≠ 0))) r = true) ↔
        ((fun r => decide (r ≠ 0) &&
          decide (lab r = i1 ∧ newL (r - 1) = s ∧ newL r = t' ∧ act (r - 1) = a)) r
            = true) := by
      intro r _
      simp only [Bool.and_eq_true, decide_eq_true_eq]
      tauto
    rw [List.countP_congr hre, countP_range_shift]
    refine List.countP_congr (fun i hi => ?_)
    simp only [Nat.add_sub_cancel, decide_eq_true_eq]
    constructor
    · rintro ⟨-, h1, h2, h3⟩
      exact ⟨h1, h2, h3⟩
    · rintro ⟨h1, h2, h3⟩
      refine ⟨?_, h1, h2, h3⟩
      exact (splitNewLabels_mem_iff lab i1 test (i + 1)).mp
        (by cases ht' with
            | inl h => exact Or.inl (h2.trans h)
            | inr h => exact Or.inr (h2.trans h))
  have hOutRow : ∀ s', (s' = i1 ∨ s' = i1 + 1) →
      outCount newL act a refs N s' t = recount N newL act a s' t := by
    intro s' hs'
    unfold outCount recount
    rw [List.countP_filter,
      countP_refs_eq lab i1 N refs hnd hrefs]
    have hre : ∀ r ∈ List.range N,
        ((fun r => decide (lab r = i1) &&
          (decide (newL r = s' ∧ newL (r + 1) = t ∧ act r = a) &&
            decide (r ≠ N - 1))) r = true) ↔
        ((fun r => decide (lab r = i1 ∧ newL r = s' ∧ newL (r + 1) = t ∧ act r = a)
            && decide (r ≠ N - 1)) r = true) := by
      intro r _
      simp only [Bool.and_eq_true, decide_eq_true_eq]
      tauto
    rw [List.countP_congr hre, countP_range_erase_last]
    refine List.countP_congr (fun i hi => ?_)
    simp only [decide_eq_true_eq]
    constructor
    · rintro ⟨-, h1, h2, h3⟩
      exact ⟨h1, h2, h3⟩
    · rintro ⟨h1, h2, h3⟩
      refine ⟨?_, h1, h2, h3⟩
      exact (splitNewLabels_mem_iff lab i1 test i).mp
        (by cases hs' with
            | inl h => exact Or.inl (h1.trans h)
            | inr h => exact Or.inr (h1.trans h))
  unfold updateTransMatrix
  by_cases ht1 : t = i1
  · rw [if_pos ⟨ht1, hs⟩, ht1]
    exact hInColumn i1 (Or.inl rfl)
  · by_cases ht2 : t = i1 + 1
    · rw [if_neg (fun h => ht1 h.1), if_pos ⟨ht2, hs⟩, ht2]
      exact hInColumn (i1 + 1) (Or.inr rfl)
    · by_cases hs1 : s = i1
      · rw [if_neg (fun h => ht1 h.1), if_neg (fun h => ht2 h.1),
          if_pos ⟨hs1, ht⟩, hs1]
        exact hOutRow i1 (Or.inl rfl)
      · by_cases hs2 : s = i1 + 1
        · rw [if_neg (fun h => ht1 h.1), if_neg (fun h => ht2 h.1),
            if_neg (fun h => hs1 h.1), if_pos ⟨hs2, ht⟩, hs2]
          exact hOutRow (i1 + 1) (Or.inr rfl)
        · rw [if_neg (fun h => ht1 h.1), if_neg (fun h => ht2 h.1),
            if_neg (fun h => hs1 h.1), if_neg (fun h => hs2 h.1)]
          rw [splitRowCol_eq]
          rw [if_neg (by tauto)]
          rw [hT]
          unfold recount
          refine List.countP_congr (fun i hi => ?_)
          simp only [decide_eq_true_eq]
          constructor
          · rintro ⟨h1, h2, h3⟩
            exact ⟨(splitNewLabels_eq_iff lab i1 test i s hs1 hs2).mpr h1,
              (splitNewLabels_eq_iff lab i1 test (i + 1) t ht1 ht2).mpr h2, h3⟩
          · rintro ⟨h1, h2, h3⟩
            exact ⟨(splitNewLabels_eq_iff lab i1 test i s hs1 hs2).mp h1,
              (splitNewLabels_eq_iff lab i1 test (i + 1) t ht1 ht2).mp h2, h3⟩

/-- Sum of all entries of the `n × n` top-left block of a count matrix
(`np.sum(matrix)` on an `n × n` array). -/
def matSum (n : Nat) (T : Nat → Nat → Nat) : Nat :=
  ∑ s ∈ Finset.range n, ∑ t ∈ Finset.range n, T s t

/-- Post-split labels stay below `K + 1` whenever pre-split labels are below
`K` and the split leaf index is a valid leaf index. -/
theorem splitNewLabels_lt (lab : Nat → Nat) (i1 K : Nat) (test : Nat → Bool)
    (i : Nat) (hb : lab i < K) (hi1 : i1 < K) :
    splitNewLabels lab i1 test i < K + 1 := by
  unfold splitNewLabels
  by_cases h : test i <;> simp [h] <;> split_ifs <;> omega

/-- Summing a `recount` matrix over a block containing every label yields the
number of stream transitions carrying the given action. -/
theorem matSum_recount {A : Type} [DecidableEq A] (n N : Nat)
    (labf : Nat → Nat) (act : Nat → A) (a : A)
    (hb : ∀ i, i < N → labf i < n) :
    matSum n (recount N labf act a)
      = (List.range (N - 1)).countP (fun i => decide (act i = a)) := by
  unfold matSum recount
  have key : ∀ l : List Nat, (∀ i ∈ l, i < N - 1) →
      (∑ s ∈ Finset.range n, ∑ t ∈ Finset.range n,
        l.countP (fun i => decide (labf i = s ∧ labf (i + 1) = t ∧ act i = a)))
      = l.countP (fun i => decide (act i = a)) := by
    intro l
    induction l with
    | nil => simp
    | cons j l' ih =>
      intro hmem
      have hj : j < N - 1 := hmem j (List.mem_cons_self j l')
      have hj1 : labf j < n := hb j (by omega)
      have hj2 : labf (j + 1) < n := hb (j + 1) (by omega)
      simp only [List.countP_cons]
      rw [Finset.sum_comm]
      have hsplit :
          (∑ t ∈ Finset.range n, ∑ s ∈ Finset.range n,
            (l'.countP (fun i => decide (labf i = s ∧ labf (i + 1) = t ∧ act i = a))
              + if decide (labf j = s ∧ labf (j + 1) = t ∧ act j = a) then 1 else 0))
          = (∑ t ∈ Finset.range n, ∑ s ∈ Finset.range n,
              l'.countP (fun i => decide (labf i = s ∧ labf (i + 1) = t ∧ act i = a)))
            + (∑ t ∈ Finset.range n, ∑ s ∈ Finset.range n,
              if decide (labf j = s ∧ labf (j + 1) = t ∧ act j = a) then 1 else 0) := by
        rw [← Finset.sum_add_distrib]
        refine Finset.sum_congr rfl (fun t _ => ?_)
        rw [← Finset.sum_add_distrib]
      rw [hsplit, Finset.sum_comm]
      rw [ih (fun i hi => hmem i (List.mem_cons_of_mem j hi))]
      have hind : (∑ t ∈ Finset.range n, ∑ s ∈ Finset.range n,
          if decide (labf j = s ∧ labf (j + 1) = t ∧ act j = a) then 1 else 0)
          = if decide (act j = a) then 1 else 0 := by
        by_cases ha : act j = a
        · have h1 : ∀ t, (∑ s ∈ Finset.range n,
              if decide (labf j = s ∧ labf (j + 1) = t ∧ act j = a) then 1 else 0)
              = if labf (j + 1) = t then 1 else 0 := by
            intro t
            by_cases htj : labf (j + 1) = t
            · rw [if_pos htj]
              have : ∀ s, (if decide (labf j = s ∧ labf (j + 1) = t ∧ act j = a)
                  then (1 : Nat) else 0) = if labf j = s then 1 else 0 := by
                intro s
                by_cases hsj : labf j = s <;> simp [hsj, htj, ha]
              simp only [this]
              rw [Finset.sum_ite_eq (Finset.range n) (labf j) (fun _ => (1 : Nat))]
              simp [Finset.mem_range.mpr hj1]
            · rw [if_neg htj]
              refine Finset.sum_eq_zero (fun s _ => ?_)
              simp [htj]
          simp only [h1]
          rw [Finset.sum_ite_eq (Finset.range n) (labf (j + 1)) (fun _ => (1 : Nat))]
          simp [Finset.mem_range.mpr hj2, ha]
        · have hz : ∀ t ∈ Finset.range n, (∑ s ∈ Finset.range n,
              if decide (labf j = s ∧ labf (j + 1) = t ∧ act j = a)
                then (1 : Nat) else 0) = 0 := by
            intro t _
            refine Finset.sum_eq_zero (fun s _ => ?_)
            simp [ha]
          rw [Finset.sum_congr rfl hz]
          simp [ha]
      rw [hind]
  refine key (List.range (N - 1)) (fun i hi => List.mem_range.mp hi)

/-- Summing the per-action transition counts over a duplicate-free set of
actions covering the stream counts every transition exactly once. -/
theorem sum_countP_actions {A : Type} [DecidableEq A] (known : Finset A)
    (act : Nat → A) (l : List Nat) (hcov : ∀ i ∈ l, act i ∈ known) :
    (∑ a ∈ known, l.countP (fun i => decide (act i = a))) = l.length := by
  induction l with
  | nil => simp
  | cons j l' ih =>
    have hj : act j ∈ known := hcov j (List.mem_cons_self j l')
    simp only [List.countP_cons]
    rw [Finset.sum_add_distrib]
    rw [ih (fun i hi => hcov i (List.mem_cons_of_mem j hi))]
    have hone : (∑ a ∈ known, if decide (act j = a) then 1 else 0)
        = (1 : Nat) := by
      simp only [decide_eq_true_eq]
      rw [Finset.sum_ite_eq known (act j) (fun _ => (1 : Nat))]
      simp [hj]
    rw [hone]
    simp [List.length_cons]

/-- C1: for every leaf (its index `i1`, its data references `refs`), every
binary test function and every action, the transition matrix produced by the
incremental split update of `SplitParams._update_transition_matrices` —
insert a row/column at the leaf index into the current matrix and recompute
only the cells whose source or target state is the split leaf from the new
labels — is cell-for-cell equal on the `(K+1) × (K+1)` grid to the matrix
obtained by recounting every transition `(i, i+1)` of the streams from scratch
under the new labels. -/
theorem claim_C1_incremental_update_equals_recount {A : Type} [DecidableEq A]
    (lab : Nat → Nat) (act : Nat → A) (a : A) (N K i1 : Nat)
    (test : Nat → Bool) (T : Nat → Nat → Nat) (refs : List Nat)
    (hnd : refs.Nodup) (hrefs : ∀ r, r ∈ refs ↔ r < N ∧ lab r = i1)
    (hT : ∀ s t, T s t = recount N lab act a s t) :
    ∀ s t, s < K + 1 → t < K + 1 →
      updateTransMatrix T i1 N K (splitNewLabels lab i1 test) act a refs s t
        = recount N (splitNewLabels lab i1 test) act a s t :=
  updateTrans_eq_recount lab act a N K i1 test T refs hnd hrefs hT

/-- Witness for C1 at a concrete model: four samples alternating between two
leaves, leaf 0 split by sending sample 2 to the new sibling. -/
theorem claim_C1_witness :
    updateTransMatrix
        (fun s t => recount 4 (fun i => i % 2) (fun i => i % 2) 0 s t)
        0 4 2 (splitNewLabels (fun i => i % 2) 0 (fun i => decide (i = 2)))
        (fun i => i % 2) 0 [0, 2] 0 1
      = recount 4 (splitNewLabels (fun i => i % 2) 0 (fun i => decide (i = 2)))
          (fun i => i % 2) 0 0 1 :=
  claim_C1_incremental_update_equals_recount
    (fun i => i % 2) (fun i => i % 2) 0 4 2 0 (fun i => decide (i = 2))
    (fun s t => recount 4 (fun i => i % 2) (fun i => i % 2) 0 s t) [0, 2]
    (by decide)
    (by
      intro r
      simp only [List.mem_cons, List.not_mem_nil, or_false]
      omega)
    (fun s t => rfl) 0 1 (by omega) (by omega)

/-- C2: after a split, for every action the sum of entries of the new
transition matrix equals the sum of entries of the matrix before the split,
and the sums over all known actions together equal `N - 1` for `N` stored
observations. -/
theorem claim_C2_count_conservation {A : Type} [DecidableEq A]
    (lab : Nat → Nat) (act : Nat → A) (N K i1 : Nat) (test : Nat → Bool)
    (Told : A → Nat → Nat → Nat) (refs : List Nat) (known : Finset A)
    (hnd : refs.Nodup) (hrefs : ∀ r, r ∈ refs ↔ r < N ∧ lab r = i1)
    (hT : ∀ a s t, Told a s t = recount N lab act a s t)
    (hbound : ∀ i, i < N → lab i < K) (hi1 : i1 < K)
    (hcov : ∀ i, i < N - 1 → act i ∈ known) :
    (∀ a, matSum (K + 1)
        (updateTransMatrix (Told a) i1 N K (splitNewLabels lab i1 test) act a refs)
      = matSum K (Told a))
    ∧ (∑ a ∈ known, matSum (K + 1)
        (updateTransMatrix (Told a) i1 N K (splitNewLabels lab i1 test) act a refs))
      = N - 1 := by
  have hnewsum : ∀ a, matSum (K + 1)
      (updateTransMatrix (Told a) i1 N K (splitNewLabels lab i1 test) act a refs)
      = (List.range (N - 1)).countP (fun i => decide (act i = a)) := by
    intro a
    have hcells := updateTrans_eq_recount lab act a N K i1 test (Told a) refs
      hnd hrefs (hT a)
    have h1 : matSum (K + 1)
        (updateTransMatrix (Told a) i1 N K (splitNewLabels lab i1 test) act a refs)
        = matSum (K + 1) (recount N (splitNewLabels lab i1 test) act a) := by
      unfold matSum
      refine Finset.sum_congr rfl (fun s hs => Finset.sum_congr rfl (fun t ht => ?_))
      exact hcells s t (Finset.mem_range.mp hs) (Finset.mem_range.mp ht)
    rw [h1]
    exact matSum_recount (K + 1) N (splitNewLabels lab i1 test) act a
      (fun i hi => splitNewLabels_lt lab i1 K test i (hbound i hi) hi1)
  have holdsum : ∀ a, matSum K (Told a)
      = (List.range (N - 1)).countP (fun i => decide (act i = a)) := by
    intro a
    have h1 : matSum K (Told a) = matSum K (recount N lab act a) := by
      unfold matSum
      refine Finset.sum_congr rfl (fun s _ => Finset.sum_congr rfl (fun t _ => ?_))
      exact hT a s t
    rw [h1]
    exact matSum_recount K N lab act a hbound
  constructor
  · intro a
    rw [hnewsum a, holdsum a]
  · have h2 : (∑ a ∈ known, matSum (K + 1)
        (updateTransMatrix (Told a) i1 N K (splitNewLabels lab i1 test) act a refs))
        = ∑ a ∈ known, (List.range (N - 1)).countP (fun i => decide (act i = a)) :=
      Finset.sum_congr rfl (fun a _ => hnewsum a)
    rw [h2, sum_countP_actions known act (List.range (N - 1))
      (fun i hi => hcov i (List.mem_range.mp hi))]
    exact List.length_range (N - 1)

/-- Witness for C2 at the concrete model of `claim_C1_witness`: both the
per-action conservation (for action 0) and the global `N - 1` sum. -/
theorem claim_C2_witness :
    matSum 3
        (updateTransMatrix
          (fun s t => recount 4 (fun i => i % 2) (fun i => i % 2) 0 s t)
          0 4 2 (splitNewLabels (fun i => i % 2) 0 (fun i => decide (i = 2)))
          (fun i => i % 2) 0 [0, 2])
      = matSum 2 (fun s t => recount 4 (fun i => i % 2) (fun i => i % 2) 0 s t)
    ∧ (∑ a ∈ ({0, 1} : Finset Nat), matSum 3
        (updateTransMatrix
          (fun s t => recount 4 (fun i => i % 2) (fun i => i % 2) a s t)
          0 4 2 (splitNewLabels (fun i => i % 2) 0 (fun i => decide (i = 2)))
          (fun i => i % 2) a [0, 2]))
      = 3 := by
  have h := claim_C2_count_conservation
    (fun i => i % 2) (fun i => i % 2) 4 2 0 (fun i => decide (i = 2))
    (fun a s t => recount 4 (fun i => i % 2) (fun i => i % 2) a s t) [0, 2]
    ({0, 1} : Finset Nat)
    (by decide)
    (by
      intro r
      simp only [List.mem_cons, List.not_mem_nil, or_false]
      omega)
    (fun a s t => rfl)
    (by
      intro i _
      show i % 2 < 2
      omega)
    (by omega)
    (by
      intro i _
      simp only [Finset.mem_insert, Finset.mem_singleton]
      omega)
  exact ⟨h.1 0, h.2⟩

/-- Split primitive as claim C3 reads it, modelled from the spec's words for
comparison with the source: insert a zeroed row and a zeroed column
immediately after the given index, leaving every other entry untouched. -/
def specSplitRowCol (T : Nat → Nat → Nat) (i : Nat) : Nat → Nat → Nat :=
  fun s t =>
    if s = i + 1 ∨ t = i + 1 then 0
    else T (if s ≤ i then s else s - 1) (if t ≤ i then t else t - 1)

/-- Counterexample to C3 as stated: on the `1 × 1` matrix `[[5]]` at index 0,
the source primitive zeroes the original row and column as well, so the entry
`5` is destroyed (cell `(0,0)` becomes `0`), while the claimed behaviour —
inserting after the index and leaving other entries untouched — would keep it
at `5`. -/
theorem claim_C3_counterexample :
    splitRowCol (fun s t => if s = 0 ∧ t = 0 then 5 else 0) 0 0 0 = 0
    ∧ specSplitRowCol (fun s t => if s = 0 ∧ t = 0 then 5 else 0) 0 0 0 = 5
    ∧ (0 : Nat) ≠ 5 := by
  refine ⟨rfl, rfl, by omega⟩

/-- C3 amended: the row/column split primitive zeroes the original row and
column of the split index in addition to inserting a zeroed row and column at
that index — rows and columns `i` and `i+1` of the result are zero — and every
entry whose row and column both lie outside `{i, i+1}` is left unchanged
(same value, shifted position for rows/columns past the insertion point). -/
theorem claim_C3_amended (T : Nat → Nat → Nat) (i s t : Nat) :
    (s = i ∨ s = i + 1 ∨ t = i ∨ t = i + 1 → splitRowCol T i s t = 0)
    ∧ (s ≠ i → s ≠ i + 1 → t ≠ i → t ≠ i + 1 →
        splitRowCol T i s t = T (unshift i s) (unshift i t)) := by
  constructor
  · intro h
    rw [splitRowCol_eq, if_pos h]
  · intro h1 h2 h3 h4
    rw [splitRowCol_eq, if_neg (by tauto)]

/-- Witness for the amended C3 on a concrete matrix: a zeroed cell in the new
row and an untouched, shifted cell. -/
theorem claim_C3_amended_witness :
    splitRowCol (fun s t => s * 10 + t) 1 1 0 = 0
    ∧ splitRowCol (fun s t => s * 10 + t) 1 0 3
        = (fun s t => s * 10 + t) (unshift 1 0) (unshift 1 3) :=
  ⟨(claim_C3_amended (fun s t => s * 10 + t) 1 1 0).1 (Or.inl rfl),
   (claim_C3_amended (fun s t => s * 10 + t) 1 0 3).2
     (by omega) (by omega) (by omega) (by omega)⟩

/-! ### Data-reference split (`SplitParams._update_dat_refs`)

src/split_params.py lines 105-127: the two children's data references are the
sample indices carrying the two new labels, and the code then runs

    assert len(new_dat_refs[0]) > 0
    assert len(new_dat_refs[1]) > 0

A failing Python `assert` raises `AssertionError`; we embed it as
`Except.error`.  (The old implementation `WorldModelTree._relabel_data`,
src/worldmodel.py lines 96-109, has the same asserts followed by a
`return None, None` recovery path that the asserts make unreachable.) -/

/-- Data-reference split of a candidate: partition the sample indices by the
two new labels, failing (assert) when either side is empty. -/
def updateDatRefs (N : Nat) (newL : Nat → Nat) (i1 : Nat) :
    Except Unit (List Nat × List Nat) :=
  let r0 := (List.range N).filter (fun i => decide (newL i = i1))
  let r1 := (List.range N).filter (fun i => decide (newL i = i1 + 1))
  if r0.length = 0 ∨ r1.length = 0 then Except.error () else Except.ok (r0, r1)

/-- C4 (failing input): a leaf with two samples whose candidate test sends
both to child 0 makes `_update_dat_refs` raise its assertion — the evaluation
aborts with an error instead of discarding the candidate and continuing, as
the claim (and the dead `return None, None` recovery path of
`_relabel_data` together with its caller's `None` check) would have it. -/
theorem claim_C4_empty_side_aborts :
    updateDatRefs 2 (splitNewLabels (fun _ => 0) 0 (fun _ => false)) 0
      = Except.error () := rfl

/-! ### Data ingestion (`WorldModelTree.add_data`)

src/worldmodel.py lines 185-259, fresh-model call path (`self.data is None`):
labels of all new samples are computed by `classify` against the single-leaf
tree (label 0); a one-short action list gets `None` appended, then
`assert len(actions) == n`; one transition matrix per distinct action value is
created and the counting loop runs over `i in range(0, N-1)`. -/

/-- State of a freshly filled model: per-sample labels, the stored action list
(`None` embedded as `Option.none`) and the per-action `1 × 1` transition
matrices (single entry each). -/
structure FreshModel (A : Type) where
  labels : List Nat
  actions : List (Option A)
  trans : Option A → Nat

/-- The fresh-model call path of `add_data`: append `None` when the action
list is one short, fail (assert) unless the padded list has one action per
observation, then count the transitions `(i, i+1)` for `i < n - 1` into the
`1 × 1` matrices of the single-leaf tree. -/
def addDataFresh {A : Type} [DecidableEq A] (n : Nat) (acts : List A) :
    Except Unit (FreshModel A) :=
  if (acts.map some ++ (if acts.length < n then [Option.none] else [])).length = n then
    Except.ok
      { labels := List.replicate n 0
        actions := acts.map some ++ (if acts.length < n then [Option.none] else [])
        trans := fun a =>
          (List.range (n - 1)).countP
            (fun i => decide ((acts.map some
              ++ (if acts.length < n then [Option.none] else [])).getD i Option.none = a)) }
  else Except.error ()

/-- C7: with `N` observations, an action list of length `N - 1` succeeds, the
appended unknown action is the stored list's final entry and contributes to no
transition count; an action list whose length is neither `N` nor `N - 1`
fails. -/
theorem claim_C7_add_data_action_lengths {A : Type} [DecidableEq A]
    (n : Nat) (acts : List A) :
    (acts.length + 1 = n →
      addDataFresh n acts = Except.ok
        { labels := List.replicate n 0
          actions := acts.map some ++ [Option.none]
          trans := fun a =>
            (List.range (n - 1)).countP
              (fun i => decide ((acts.map some ++ [Option.none]).getD i Option.none = a)) }
        ∧ (acts.map some ++ [Option.none])[n - 1]? = some Option.none
        ∧ (List.range (n - 1)).countP
            (fun i => decide ((acts.map some ++ [Option.none]).getD i Option.none
              = (Option.none : Option A))) = 0)
    ∧ (acts.length ≠ n → acts.length + 1 ≠ n →
        addDataFresh n acts = Except.error ()) := by
  constructor
  · intro hlen
    have hlt : acts.length < n := by omega
    have hwn : (acts.map some ++ (if acts.length < n then [Option.none] else []))
        = acts.map some ++ [(Option.none : Option A)] := by
      rw [if_pos hlt]
    have hlen2 : (acts.map some ++ [(Option.none : Option A)]).length = n := by
      simp only [List.length_append, List.length_map, List.length_cons,
        List.length_nil]
      omega
    refine ⟨?_, ?_, ?_⟩
    · unfold addDataFresh
      rw [hwn, if_pos hlen2]
    · have hn1 : n - 1 = (acts.map some).length := by
        simp only [List.length_map]
        omega
      rw [hn1, List.getElem?_append_right (Nat.le_refl _)]
      simp
    · rw [List.countP_eq_zero]
      intro i hi
      have hilt : i < acts.length := by
        have := List.mem_range.mp hi
        omega
      have hgd : ∃ x, (acts.map some ++ [(Option.none : Option A)]).getD i Option.none
          = some x := by
        rw [List.getD_eq_getElem?_getD,
          List.getElem?_append_left (by simpa [List.length_map] using hilt),
          List.getElem?_map, List.getElem?_eq_getElem hilt]
        exact ⟨acts[i], rfl⟩
      obtain ⟨x, hx⟩ := hgd
      rw [List.getD_eq_getElem?_getD] at hx
      simp [hx]
  · intro h1 h2
    unfold addDataFresh
    by_cases hlt : acts.length < n
    · have hL : (acts.map some ++ (if acts.length < n then [Option.none] else [])).length
          = acts.length + 1 := by
        rw [if_pos hlt]
        simp [List.length_append, List.length_map]
      rw [if_neg (by omega)]
    · have hL : (acts.map some ++ (if acts.length < n then [Option.none] else [])).length
          = acts.length := by
        rw [if_neg hlt]
        simp [List.length_map]
      rw [if_neg (by omega)]

/-- Witness for C7: three observations with two known actions succeed with a
trailing unknown action that is counted nowhere, and an action list two short
fails. -/
theorem claim_C7_witness :
    (addDataFresh 3 [0, 1] = Except.ok
        { labels := List.replicate 3 0
          actions := [0, 1].map some ++ [Option.none]
          trans := fun a =>
            (List.range 2).countP
              (fun i => decide (([0, 1].map some ++ [Option.none]).getD i Option.none = a)) }
      ∧ ([0, 1].map some ++ [Option.none])[2]? = some Option.none
      ∧ (List.range 2).countP
          (fun i => decide (([0, 1].map some ++ [Option.none]).getD i Option.none
            = (Option.none : Option Nat))) = 0)
    ∧ addDataFresh 3 [0] = Except.error () :=
  ⟨(claim_C7_add_data_action_lengths 3 [0, 1]).1 (by decide),
   (claim_C7_add_data_action_lengths 3 [0]).2 (by decide) (by decide)⟩

/-! ### Best-split selection loops

`Partitioning.calc_best_split` (src/partitioning.py lines 49-73) keeps the
incumbent best candidate and replaces it whenever
`split.get_gain() >= best_split.get_gain()`;
`WorldModelTree.single_splitting_step` (src/worldmodel.py lines 680-712)
replaces it only on `gain > best_gain`.  We embed both loops over the list of
candidate gains in iteration order, returning the selected position and
gain. -/

/-- Selection loop of `calc_best_split`: the running best is replaced whenever
the next gain is greater than or equal to it. -/
def bestGe : Nat → Option (Nat × ℚ) → List ℚ → Option (Nat × ℚ)
  | _, best, [] => best
  | i, Option.none, g :: rest => bestGe (i + 1) (some (i, g)) rest
  | i, some (bi, bg), g :: rest =>
      bestGe (i + 1) (if bg ≤ g then some (i, g) else some (bi, bg)) rest

/-- `Partitioning.calc_best_split` selection over the gains in leaf iteration
order. -/
def calcBestSplitIdx (gains : List ℚ) : Option (Nat × ℚ) :=
  bestGe 0 Option.none gains

/-- Selection loop of `single_splitting_step`: the running best is replaced
only when the next gain is strictly greater. -/
def bestGt : Nat → Option (Nat × ℚ) → List ℚ → Option (Nat × ℚ)
  | _, best, [] => best
  | i, Option.none, g :: rest => bestGt (i + 1) (some (i, g)) rest
  | i, some (bi, bg), g :: rest =>
      bestGt (i + 1) (if bg < g then some (i, g) else some (bi, bg)) rest

/-- `WorldModelTree.single_splitting_step` selection over the gains in leaf
iteration order. -/
def singleSplitIdx (gains : List ℚ) : Option (Nat × ℚ) :=
  bestGt 0 Option.none gains

/-- Counterexample to C8 as stated: with two candidates of equal maximal gain,
`calc_best_split` (`>=` comparison) selects position 1, not the first-seen
position 0. -/
theorem claim_C8_counterexample :
    calcBestSplitIdx [5, 5] = some (1, 5) ∧ (1 : Nat) ≠ 0 := by
  constructor
  · rfl
  · omega

/-- Invariant of the `>=` selection loop: it returns a gain at least the
incumbent's, an upper bound for all scanned gains, and either keeps the
incumbent with every scanned gain strictly below it, or selects a scanned
position after which every gain is strictly smaller. -/
theorem bestGe_spec (l : List ℚ) : ∀ (k bi : Nat) (bg : ℚ), ∃ i g,
    bestGe k (some (bi, bg)) l = some (i, g) ∧ bg ≤ g
    ∧ (∀ j, j < l.length → l.getD j 0 ≤ g)
    ∧ ((i = bi ∧ g = bg ∧ ∀ j, j < l.length → l.getD j 0 < bg)
       ∨ (∃ m, m < l.length ∧ i = k + m ∧ g = l.getD m 0
            ∧ ∀ j, m < j → j < l.length → l.getD j 0 < g)) := by
  induction l with
  | nil =>
    intro k bi bg
    refine ⟨bi, bg, rfl, le_refl bg, ?_, Or.inl ⟨rfl, rfl, ?_⟩⟩
    · intro j hj
      simp at hj
    · intro j hj
      simp at hj
  | cons g0 rest ih =>
    intro k bi bg
    by_cases hle : bg ≤ g0
    · obtain ⟨i, g, heq, hge, hub, hcase⟩ := ih (k + 1) k g0
      refine ⟨i, g, ?_, le_trans hle hge, ?_, ?_⟩
      · simp only [bestGe, if_pos hle]
        exact heq
      · intro j hj
        cases j with
        | zero => simpa using hge
        | succ j' =>
          rw [List.getD_cons_succ]
          exact hub j' (by simpa using hj)
      · right
        rcases hcase with ⟨hib, hgb, hrest⟩ | ⟨m', hm', him, hgm, hlater⟩
        · refine ⟨0, by simp, by omega, by simpa using hgb, ?_⟩
          intro j hj0 hjlen
          cases j with
          | zero => omega
          | succ j' =>
            rw [List.getD_cons_succ]
            have := hrest j' (by simpa using hjlen)
            rw [hgb]
            exact this
        · refine ⟨m' + 1, by simpa using hm', by omega, by simpa using hgm, ?_⟩
          intro j hj0 hjlen
          cases j with
          | zero => omega
          | succ j' =>
            rw [List.getD_cons_succ]
            exact hlater j' (by omega) (by simpa using hjlen)
    · obtain ⟨i, g, heq, hge, hub, hcase⟩ := ih (k + 1) bi bg
      have hg0 : g0 < bg := lt_of_not_le hle
      refine ⟨i, g, ?_, hge, ?_, ?_⟩
      · simp only [bestGe, if_neg hle]
        exact heq
      · intro j hj
        cases j with
        | zero => simpa using le_trans (le_of_lt hg0) hge
        | succ j' =>
          rw [List.getD_cons_succ]
          exact hub j' (by simpa using hj)
      · rcases hcase with ⟨hib, hgb, hrest⟩ | ⟨m', hm', him, hgm, hlater⟩
        · refine Or.inl ⟨hib, hgb, ?_⟩
          intro j hj
          cases j with
          | zero => simpa using hg0
          | succ j' =>
            rw [List.getD_cons_succ]
            exact hrest j' (by simpa using hj)
        · refine Or.inr ⟨m' + 1, by simpa using hm', by omega, by simpa using hgm, ?_⟩
          intro j hj0 hjlen
          cases j with
          | zero => omega
          | succ j' =>
            rw [List.getD_cons_succ]
            exact hlater j' (by omega) (by simpa using hjlen)

/-- Invariant of the `>` selection loop: it returns a gain at least the
incumbent's, an upper bound for all scanned gains, and either keeps the
incumbent or selects a scanned position that strictly beats the incumbent and
every gain before it. -/
theorem bestGt_spec (l : List ℚ) : ∀ (k bi : Nat) (bg : ℚ), ∃ i g,
    bestGt k (some (bi, bg)) l = some (i, g) ∧ bg ≤ g
    ∧ (∀ j, j < l.length → l.getD j 0 ≤ g)
    ∧ ((i = bi ∧ g = bg)
       ∨ (∃ m, m < l.length ∧ i = k + m ∧ g = l.getD m 0 ∧ bg < g
            ∧ ∀ j, j < m → l.getD j 0 < g)) := by
  induction l with
  | nil =>
    intro k bi bg
    refine ⟨bi, bg, rfl, le_refl bg, ?_, Or.inl ⟨rfl, rfl⟩⟩
    intro j hj
    simp at hj
  | cons g0 rest ih =>
    intro k bi bg
    by_cases hlt : bg < g0
    · obtain ⟨i, g, heq, hge, hub, hcase⟩ := ih (k + 1) k g0
      refine ⟨i, g, ?_, le_trans (le_of_lt hlt) hge, ?_, ?_⟩
      · simp only [bestGt, if_pos hlt]
        exact heq
      · intro j hj
        cases j with
        | zero => simpa using hge
        | succ j' =>
          rw [List.getD_cons_succ]
          exact hub j' (by simpa using hj)
      · right
        rcases hcase with ⟨hib, hgb⟩ | ⟨m', hm', him, hgm, hbg, hlater⟩
        · refine ⟨0, by simp, by omega, by simpa using hgb, by
            rw [hgb]; exact hlt, ?_⟩
          intro j hj
          omega
        · refine ⟨m' + 1, by simpa using hm', by omega, by simpa using hgm,
            lt_trans hlt hbg, ?_⟩
          intro j hj
          cases j with
          | zero => simpa using hbg
          | succ j' =>
            rw [List.getD_cons_succ]
            exact hlater j' (by omega)
    · obtain ⟨i, g, heq, hge, hub, hcase⟩ := ih (k + 1) bi bg
      have hg0 : g0 ≤ bg := le_of_not_lt hlt
      refine ⟨i, g, ?_, hge, ?_, ?_⟩
      · simp only [bestGt, if_neg hlt]
        exact heq
      · intro j hj
        cases j with
        | zero => simpa using le_trans hg0 hge
        | succ j' =>
          rw [List.getD_cons_succ]
          exact hub j' (by simpa using hj)
      · rcases hcase with ⟨hib, hgb⟩ | ⟨m', hm', him, hgm, hbg, hlater⟩
        · exact Or.inl ⟨hib, hgb⟩
        · refine Or.inr ⟨m' + 1, by simpa using hm', by omega, by simpa using hgm,
            hbg, ?_⟩
          intro j hj
          cases j with
          | zero => simpa using lt_of_le_of_lt hg0 hbg
          | succ j' =>
            rw [List.getD_cons_succ]
            exact hlater j' (by omega)

/-- C8 corrected: in one evaluation round both selection loops pick a
candidate attaining the maximal gain, but on ties `calc_best_split` (gains
compared with `>=`) selects the candidate encountered last in iteration order
— every later candidate is strictly worse than the selected one — while
`single_splitting_step` (strict `>`) selects the candidate encountered first
— every earlier candidate is strictly worse. -/
theorem claim_C8_amended (gains : List ℚ) (i i' : Nat) (g g' : ℚ)
    (h1 : calcBestSplitIdx gains = some (i, g))
    (h2 : singleSplitIdx gains = some (i', g')) :
    (i < gains.length ∧ gains.getD i 0 = g
      ∧ (∀ j, j < gains.length → gains.getD j 0 ≤ g)
      ∧ (∀ j, i < j → j < gains.length → gains.getD j 0 < g))
    ∧ (i' < gains.length ∧ gains.getD i' 0 = g'
      ∧ (∀ j, j < gains.length → gains.getD j 0 ≤ g')
      ∧ (∀ j, j < i' → gains.getD j 0 < g')) := by
  cases gains with
  | nil =>
    exact absurd h1 (by simp [calcBestSplitIdx, bestGe])
  | cons g0 rest =>
    constructor
    · obtain ⟨i2, g2, heq, hge, hub, hcase⟩ := bestGe_spec rest 1 0 g0
      have h1' : bestGe 0 Option.none (g0 :: rest) = some (i, g) := h1
      rw [show bestGe 0 Option.none (g0 :: rest) = bestGe 1 (some (0, g0)) rest
        from rfl, heq] at h1'
      have hi : i2 = i := (Prod.mk.injEq _ _ _ _).mp (Option.some.inj h1') |>.1
      have hg : g2 = g := (Prod.mk.injEq _ _ _ _).mp (Option.some.inj h1') |>.2
      subst hi
      subst hg
      rcases hcase with ⟨hib, hgb, hrest⟩ | ⟨m, hm, him, hgm, hlater⟩
      · subst hib
        refine ⟨by simp, by simpa using hgb.symm, ?_, ?_⟩
        · intro j hj
          cases j with
          | zero => simpa using hgb.ge
          | succ j' =>
            rw [List.getD_cons_succ]
            exact hub j' (by simpa using hj)
        · intro j hj0 hjlen
          cases j with
          | zero => omega
          | succ j' =>
            rw [List.getD_cons_succ]
            rw [hgb]
            exact hrest j' (by simpa using hjlen)
      · subst him
        refine ⟨by simp only [List.length_cons]; omega,
          by rw [Nat.add_comm 1 m, List.getD_cons_succ]; exact hgm.symm, ?_, ?_⟩
        · intro j hj
          cases j with
          | zero => simpa using hge
          | succ j' =>
            rw [List.getD_cons_succ]
            exact hub j' (by simpa using hj)
        · intro j hj0 hjlen
          cases j with
          | zero => omega
          | succ j' =>
            rw [List.getD_cons_succ]
            exact hlater j' (by omega) (by simpa using hjlen)
    · obtain ⟨i2, g2, heq, hge, hub, hcase⟩ := bestGt_spec rest 1 0 g0
      have h2' : bestGt 0 Option.none (g0 :: rest) = some (i', g') := h2
      rw [show bestGt 0 Option.none (g0 :: rest) = bestGt 1 (some (0, g0)) rest
        from rfl, heq] at h2'
      have hi : i2 = i' := (Prod.mk.injEq _ _ _ _).mp (Option.some.inj h2') |>.1
      have hg : g2 = g' := (Prod.mk.injEq _ _ _ _).mp (Option.some.inj h2') |>.2
      subst hi
      subst hg
      rcases hcase with ⟨hib, hgb⟩ | ⟨m, hm, him, hgm, hbg, hlater⟩
      · subst hib
        refine ⟨by simp, by simpa using hgb.symm, ?_, ?_⟩
        · intro j hj
          cases j with
          | zero => simpa using hgb.ge
          | succ j' =>
            rw [List.getD_cons_succ]
            exact hub j' (by simpa using hj)
        · intro j hj
          omega
      · subst him
        refine ⟨by simp only [List.length_cons]; omega,
          by rw [Nat.add_comm 1 m, List.getD_cons_succ]; exact hgm.symm, ?_, ?_⟩
        · intro j hj
          cases j with
          | zero => simpa using hge
          | succ j' =>
            rw [List.getD_cons_succ]
            exact hub j' (by simpa using hj)
        · intro j hj
          cases j with
          | zero => simpa using hbg
          | succ j' =>
            rw [List.getD_cons_succ]
            exact hlater j' (by omega)

/-- Witness for the amended C8 on the gains `[3, 5, 5]`: the `>=` loop picks
the last tied maximum (position 2), the `>` loop the first (position 1). -/
theorem claim_C8_amended_witness :
    calcBestSplitIdx [3, 5, 5] = some (2, 5)
    ∧ singleSplitIdx [3, 5, 5] = some (1, 5)
    ∧ ([3, 5, 5] : List ℚ).getD 2 0 = 5
    ∧ ([3, 5, 5] : List ℚ).getD 0 0 < 5 := by
  have h := claim_C8_amended [3, 5, 5] 2 1 5 5 (by decide) (by decide)
  exact ⟨by decide, by decide, h.1.2.1, h.2.2.2.2 0 (by omega)⟩

/-! ### Tree classifier (`WorldmodelTree.classify`)

src/worldmodel_tree.py lines 50-74: for every row of the batch, walk from the
root choosing the child given by the node's frozen binary test, and return the
reached leaf's index in the left-to-right leaf order.  We instantiate the test
with the axis-aligned cut of `WorldmodelTrivial._test`
(src/worldmodel_methods.py lines 63-69). -/

/-- Frozen test parameters of `WorldmodelTrivial`: a dimension and a cut
point. -/
structure TrivialTestParams where
  dim : Nat
  cut : ℚ

/-- Axis-aligned binary test of `WorldmodelTrivial._test`: child 1 iff the
observation's coordinate along `dim` exceeds the cut. -/
def trivialTest (x : List ℚ) (p : TrivialTestParams) : Nat :=
  if x.getD p.dim 0 > p.cut then 1 else 0

/-- Binary tree of split nodes with frozen test parameters; leaves carry no
data of their own here (classification only needs the structure). -/
inductive WTree where
  | leaf : WTree
  | split : TrivialTestParams → WTree → WTree → WTree

/-- Number of leaves of a tree (`get_number_of_leaves`). -/
def numLeaves : WTree → Nat
  | WTree.leaf => 1
  | WTree.split _ l r => numLeaves l + numLeaves r

/-- Root-to-leaf walk of `classify` for one observation: returns the index of
the reached leaf in left-to-right leaf order (the `node_indices` lookup). -/
def classifyOne : WTree → List ℚ → Nat
  | WTree.leaf, _ => 0
  | WTree.split p l r, x =>
      if trivialTest x p = 0 then classifyOne l x
      else numLeaves l + classifyOne r x

/-- Vectorised `classify` over a batch, returned together with the model tree
it leaves untouched (the source method only reads the tree). -/
def classifyBatch (t : WTree) (batch : List (List ℚ)) : List Nat × WTree :=
  (batch.map (fun x => classifyOne t x), t)

/-- C9: classify is a deterministic, mutation-free function of the batch and
the current tree — calling it twice on the same batch with no intervening
mutation returns identical label vectors, and the model state it returns is
the one it was given. -/
theorem claim_C9_classify_idempotent (t : WTree) (batch : List (List ℚ)) :
    (classifyBatch t batch).1 = (classifyBatch (classifyBatch t batch).2 batch).1
    ∧ (classifyBatch t batch).2 = t :=
  ⟨rfl, rfl⟩

/-! ### Partitioning constructor (`Partitioning.__init__`)

src/partitioning.py lines 11-23: labels are `np.zeros(N)`, the tree is a newly
constructed `WorldmodelTree` (the `tree_structure.Tree` base class is not under
src; a fresh tree being a single leaf is modelled from the spec, sections 3 and
4.1), and for every known action the transition matrix is the `1 × 1` matrix
`np.ones((1,1)) * np.count_nonzero(model.actions == action)`. -/

/-- Embeds `np.count_nonzero(actions == a)`: the number of positions of the
action stream equal to `a`. -/
def countNonzeroEq {A : Type} [DecidableEq A] (actions : List A) (a : A) : Nat :=
  (actions.map (fun x => if x = a then (1 : Nat) else 0)).sum

/-- State built by `Partitioning.__init__`: label vector, tree and the
per-action `1 × 1` transition matrices (one entry each, keyed by the known
actions). -/
structure PartitioningState (A : Type) where
  labels : List Nat
  tree : WTree
  transition1x1 : A → Nat

/-- The constructor `Partitioning.__init__` for a model with `N` stored
samples: zero labels, a fresh single-leaf tree (modelled from the spec for the
missing `tree_structure.Tree`), and one occurrence count per known action. -/
def partitioningInit {A : Type} [DecidableEq A] (N : Nat) (actions : List A)
    (known : List A) : PartitioningState A :=
  { labels := List.replicate N 0
    tree := WTree.leaf
    transition1x1 := fun a => if a ∈ known then countNonzeroEq actions a else 0 }

/-- Counting with a 0/1 indicator map equals `List.count`. -/
theorem countNonzeroEq_eq_count {A : Type} [DecidableEq A] (actions : List A)
    (a : A) : countNonzeroEq actions a = actions.count a := by
  induction actions with
  | nil => rfl
  | cons b l ih =>
    unfold countNonzeroEq at ih ⊢
    simp only [List.map_cons, List.sum_cons, List.count_cons, ih]
    by_cases hb : b = a <;> simp [hb, beq_iff_eq]
    omega

/-- C10: immediately after `Partitioning.__init__` for a model with `N` stored
samples, the label vector is the all-zeros vector of length `N`, the tree is a
single leaf, and each known action's transition matrix is the `1 × 1` matrix
whose entry is the number of occurrences of that action in the action
stream. -/
theorem claim_C10_partitioning_init {A : Type} [DecidableEq A] (N : Nat)
    (actions known : List A) :
    (partitioningInit N actions known).labels.length = N
    ∧ (∀ j, j < N → (partitioningInit N actions known).labels.getD j 1 = 0)
    ∧ (partitioningInit N actions known).tree = WTree.leaf
    ∧ numLeaves (partitioningInit N actions known).tree = 1
    ∧ (∀ a, a ∈ known →
        (partitioningInit N actions known).transition1x1 a = actions.count a) := by
  refine ⟨List.length_replicate N 0, ?_, rfl, rfl, ?_⟩
  · intro j hj
    unfold partitioningInit
    simp [List.getD_eq_getElem?_getD, List.getElem?_replicate, hj]
  · intro a ha
    unfold partitioningInit
    simp only [if_pos ha]
    exact countNonzeroEq_eq_count actions a

/-- Witness for C10 with three samples and action stream `[0, 0, 1]`. -/
theorem claim_C10_witness :
    (partitioningInit 3 [0, 0, 1] [0, 1]).labels.length = 3
    ∧ (partitioningInit 3 [0, 0, 1] [0, 1]).labels.getD 2 1 = 0
    ∧ numLeaves (partitioningInit 3 [0, 0, 1] [0, 1]).tree = 1
    ∧ (partitioningInit 3 [0, 0, 1] [0, 1]).transition1x1 0 = 2 := by
  have h := claim_C10_partitioning_init 3 [0, 0, 1] [0, 1]
  refine ⟨h.1, h.2.1 2 (by omega), h.2.2.2.1, ?_⟩
  rw [h.2.2.2.2 0 (by decide)]
  rfl

/-! ### Entropy primitives

`WorldModelTree._entropy` (src/worldmodel.py lines 470-509),
`_matrix_entropy` (lines 521-538) and `_mutual_information`
(lines 1003-1015).  numpy float arithmetic is idealised as exact arithmetic:
weight vectors are rational and the computed entropies real.  Python `assert`
statements (the negative-entry check, the empty-distribution check when
`ignore_empty_classes` is false, the two entropy bound checks, and
`assert np.sum(P) > 0`) are embedded as `Except.error`.  Division follows the
call sites, which only divide by non-zero totals. -/

/-- The probability/logarithm part of `_entropy` (lines 497-501): divide by
the total and sum `p * log2 p` over the entries with positive weight, then
negate. -/
noncomputable def entropyCalc (dist : List ℚ) : ℝ :=
  -((dist.map (fun d =>
      if 0 < d then
        ((d / dist.sum : ℚ) : ℝ) * Real.logb 2 ((d / dist.sum : ℚ) : ℝ)
      else 0)).sum)

open scoped Classical in
/-- `_entropy(dist, normalize, ignore_empty_classes)`: fail on a negative
entry; return `1.0` for at most one class; on an empty (all-zero) distribution
fail unless `ignore_empty_classes`, else return `1.0` normalised and `log2 K`
unnormalised; otherwise run the actual calculation guarded by the two bound
asserts. -/
noncomputable def wmEntropy (dist : List ℚ) (normalize ignoreEmpty : Bool) :
    Except Unit ℝ :=
  if dist.any (fun d => decide (d < 0)) then Except.error ()
  else if dist.length ≤ 1 then Except.ok 1
  else if dist.sum = 0 then
    (if ignoreEmpty = false then Except.error ()
     else if normalize then Except.ok 1
     else Except.ok (Real.logb 2 dist.length))
  else
    if entropyCalc dist ≤ Real.logb 2 dist.length then
      (if normalize then
        (if 0 ≤ entropyCalc dist / Real.logb 2 dist.length then
          Except.ok (entropyCalc dist / Real.logb 2 dist.length)
         else Except.error ())
       else
        (if 0 ≤ entropyCalc dist then Except.ok (entropyCalc dist)
         else Except.error ()))
    else Except.error ()

/-- Sequential evaluation of the row loop of `_matrix_entropy`: the first
failing row aborts the computation. -/
def exceptMapList {α β : Type} (f : α → Except Unit β) : List α → Except Unit (List β)
  | [] => Except.ok []
  | x :: xs =>
    match f x, exceptMapList f xs with
    | Except.ok y, Except.ok ys => Except.ok (y :: ys)
    | Except.error e, _ => Except.error e
    | Except.ok _, Except.error e => Except.error e

/-- `_matrix_entropy(transitions, normalize)`: per-row entropies (with
`ignore_empty_classes` at its default `False`), averaged with each row's share
of the total transition mass. -/
noncomputable def matrixEntropy (T : List (List ℚ)) (normalize : Bool) :
    Except Unit ℝ :=
  (exceptMapList (fun row => wmEntropy row normalize false) T).map
    (fun rowEnts =>
      (((T.map (fun row => row.sum / (T.map List.sum).sum)).zip rowEnts).map
        (fun p => ((p.1 : ℚ) : ℝ) * p.2)).sum)

/-- `_mutual_information(transition_matrix)`: entropy of the stationary
row-mass distribution minus the matrix entropy, after
`assert np.sum(P) > 0`. -/
noncomputable def mutualInformation (P : List (List ℚ)) : Except Unit ℝ :=
  if ¬ 0 < (P.map List.sum).sum then Except.error ()
  else
    (wmEntropy (P.map (fun row => row.sum / (P.map List.sum).sum)) false false).bind
      (fun emu => (matrixEntropy P false).map (fun e => emu - e))

/-- Counterexample to C5 as stated: on the one-entry vector `[2]` (sum
nonzero) with `normalize = False`, `_entropy` returns `1.0` — the `K <= 1`
early return fires before everything else — while the claim demands entropy
`0` for `K ≤ 1` without normalisation. -/
theorem claim_C5_counterexample :
    wmEntropy [2] false false = Except.ok 1 ∧ (1 : ℝ) ≠ 0 := by
  constructor
  · unfold wmEntropy
    norm_num
  · norm_num

/-- C5 amended: for a non-negative weight vector, `K ≤ 1` returns `1.0`
unconditionally (normalising or not, even for a zero sum, without failing);
only for `K ≥ 2` does a zero-sum vector fail when `ignore_empty` is false and
otherwise yield `1.0` normalised or `log2 K` unnormalised. -/
theorem claim_C5_amended (dist : List ℚ) (normalize ignoreEmpty : Bool)
    (hnn : ∀ d ∈ dist, 0 ≤ d) :
    (dist.length ≤ 1 → wmEntropy dist normalize ignoreEmpty = Except.ok 1)
    ∧ (2 ≤ dist.length → dist.sum = 0 →
        wmEntropy dist normalize ignoreEmpty =
          (if ignoreEmpty = false then Except.error ()
           else if normalize then Except.ok 1
           else Except.ok (Real.logb 2 dist.length))) := by
  have hany : dist.any (fun d => decide (d < 0)) = false := by
    rw [Bool.eq_false_iff]
    intro hcontra
    rw [List.any_eq_true] at hcontra
    obtain ⟨d, hd, hdlt⟩ := hcontra
    rw [decide_eq_true_eq] at hdlt
    exact absurd hdlt (not_lt.mpr (hnn d hd))
  constructor
  · intro hlen
    unfold wmEntropy
    rw [hany]
    simp only [Bool.false_eq_true, if_false]
    rw [if_pos hlen]
  · intro hlen hsum
    unfold wmEntropy
    rw [hany]
    simp only [Bool.false_eq_true, if_false]
    rw [if_neg (by omega), if_pos hsum]

/-- Witness for the amended C5: the all-zero two-entry vector with
`ignore_empty` yields `log2 2` unnormalised, and a one-entry vector yields
`1.0`. -/
theorem claim_C5_amended_witness :
    wmEntropy [0, 0] false true = Except.ok (Real.logb 2 2)
    ∧ wmEntropy [3] false true = Except.ok 1 := by
  have h2 := (claim_C5_amended [0, 0] false true
    (by
      intro d hd
      simp only [List.mem_cons, List.not_mem_nil, or_false] at hd
      rcases hd with h | h <;> simp [h])).2
    (by norm_num) (by norm_num)
  have h1 := (claim_C5_amended [3] false true (by simp)).1 (by norm_num)
  constructor
  · rw [h2]
    norm_num
  · exact h1

/-! ### Mutual information at the two extreme matrices (claim C6) -/

/-- The `K × K` transition matrix with every entry equal to `c`. -/
def uniformMat (K : Nat) (c : ℚ) : List (List ℚ) :=
  List.replicate K (List.replicate K c)

/-- The `K × K` transition matrix with count `c` at `(i, σ i)` and `0`
elsewhere. -/
def permMat (K : Nat) (σ : Nat → Nat) (c : ℚ) : List (List ℚ) :=
  (List.range K).map (fun i => (List.range K).map (fun j => if j = σ i then c else 0))

/-- Sum of a one-hot row whose hot position lies outside the range. -/
theorem sum_onehot_out (K m : Nat) (c : ℚ) (hm : K ≤ m) :
    ((List.range K).map (fun j => if j = m then c else 0)).sum = 0 := by
  refine List.sum_eq_zero (fun x hx => ?_)
  rw [List.mem_map] at hx
  obtain ⟨j, hj, hval⟩ := hx
  have : j < K := List.mem_range.mp hj
  rw [← hval, if_neg (by omega)]

/-- Sum of a one-hot row with hot position inside the range. -/
theorem sum_onehot (K m : Nat) (c : ℚ) (hm : m < K) :
    ((List.range K).map (fun j => if j = m then c else 0)).sum = c := by
  induction K with
  | zero => omega
  | succ k ih =>
    rw [List.range_succ, List.map_append, List.sum_append]
    by_cases hmk : m = k
    · rw [sum_onehot_out k m c (by omega)]
      simp only [List.map_cons, List.map_nil, List.sum_cons, List.sum_nil]
      rw [if_pos hmk.symm]
      ring
    · rw [ih (by omega)]
      simp only [List.map_cons, List.map_nil, List.sum_cons, List.sum_nil]
      rw [if_neg (fun h => hmk h.symm)]
      ring

/-- Sum of a constant rational list. -/
theorem sum_replicate_q (K : Nat) (c : ℚ) :
    (List.replicate K c).sum = (K : ℚ) * c := by
  rw [List.sum_replicate K c, nsmul_eq_mul]

/-- The entropy calculation on a constant positive vector of length `K`
equals `log2 K`. -/
theorem entropyCalc_const (K : Nat) (c : ℚ) (hK : 1 ≤ K) (hc : 0 < c) :
    entropyCalc (List.replicate K c) = Real.logb 2 K := by
  have hK0 : (K : ℚ) ≠ 0 := Nat.cast_ne_zero.mpr (by omega)
  have hsum : (List.replicate K c).sum = (K : ℚ) * c := sum_replicate_q K c
  have hdiv : c / ((K : ℚ) * c) = ((K : ℚ))⁻¹ := by
    rw [div_eq_iff (by positivity)]
    field_simp
  unfold entropyCalc
  rw [List.map_replicate, List.sum_replicate K, nsmul_eq_mul]
  rw [hsum, hdiv, if_pos hc]
  have hcast : (((K : ℚ)⁻¹ : ℚ) : ℝ) = ((K : ℝ))⁻¹ := by
    push_cast
    rfl
  rw [hcast, Real.logb_inv]
  have hKR : (K : ℝ) ≠ 0 := by
    exact_mod_cast hK0
  field_simp

/-- The entropy calculation on a one-hot row is `0`. -/
theorem entropyCalc_onehot (K m : Nat) (c : ℚ) (hm : m < K) (hc : 0 < c) :
    entropyCalc ((List.range K).map (fun j => if j = m then c else 0)) = 0 := by
  unfold entropyCalc
  rw [List.map_map]
  have hz : ((List.range K).map ((fun d =>
      if 0 < d then
        ((d / ((List.range K).map (fun j => if j = m then c else 0)).sum : ℚ) : ℝ)
          * Real.logb 2
            ((d / ((List.range K).map (fun j => if j = m then c else 0)).sum : ℚ) : ℝ)
      else 0) ∘ (fun j => if j = m then c else 0))).sum = 0 := by
    refine List.sum_eq_zero (fun x hx => ?_)
    rw [List.mem_map] at hx
    obtain ⟨j, hj, hval⟩ := hx
    rw [← hval]
    simp only [Function.comp]
    by_cases hjm : j = m
    · rw [if_pos hjm, if_pos hc, sum_onehot K m c hm]
      rw [div_self (ne_of_gt hc)]
      simp [Real.logb_one]
    · rw [if_neg hjm, if_neg (lt_irrefl 0)]
  rw [hz, neg_zero]

/-- `_entropy` on a constant positive vector of length `K ≥ 2`, unnormalised:
`log2 K`. -/
theorem wmEntropy_const (K : Nat) (c : ℚ) (hK : 2 ≤ K) (hc : 0 < c) (ie : Bool) :
    wmEntropy (List.replicate K c) false ie = Except.ok (Real.logb 2 K) := by
  have hany : (List.replicate K c).any (fun d => decide (d < 0)) = false := by
    rw [Bool.eq_false_iff]
    intro hcon
    rw [List.any_eq_true] at hcon
    obtain ⟨d, hd, hlt⟩ := hcon
    rw [List.eq_of_mem_replicate hd, decide_eq_true_eq] at hlt
    exact absurd hlt (not_lt.mpr hc.le)
  have hKQ : (0 : ℚ) < K := by
    exact_mod_cast Nat.pos_of_ne_zero (by omega)
  have hsum : ¬ (List.replicate K c).sum = 0 := by
    rw [sum_replicate_q]
    positivity
  have hlognn : 0 ≤ Real.logb 2 K :=
    Real.logb_nonneg one_lt_two (by exact_mod_cast Nat.one_le_cast.mpr (by omega))
  unfold wmEntropy
  rw [hany]
  simp only [Bool.false_eq_true, if_false, List.length_replicate]
  rw [entropyCalc_const K c (by omega) hc, if_neg (by omega), if_neg hsum,
    if_pos (le_refl (Real.logb 2 K)), if_pos hlognn]

/-- `_entropy` on a one-hot row of length `K ≥ 2`, unnormalised: `0`. -/
theorem wmEntropy_onehot (K m : Nat) (c : ℚ) (hm : m < K) (hK : 2 ≤ K)
    (hc : 0 < c) (ie : Bool) :
    wmEntropy ((List.range K).map (fun j => if j = m then c else 0)) false ie
      = Except.ok 0 := by
  have hany : ((List.range K).map (fun j => if j = m then c else 0)).any
      (fun d => decide (d < 0)) = false := by
    rw [Bool.eq_false_iff]
    intro hcon
    rw [List.any_eq_true] at hcon
    obtain ⟨d, hd, hlt⟩ := hcon
    rw [List.mem_map] at hd
    obtain ⟨j, hj, hval⟩ := hd
    rw [decide_eq_true_eq] at hlt
    rw [← hval] at hlt
    by_cases hjm : j = m
    · rw [if_pos hjm] at hlt
      exact absurd hlt (not_lt.mpr hc.le)
    · rw [if_neg hjm] at hlt
      exact absurd hlt (lt_irrefl 0)
  have hsum : ¬ ((List.range K).map (fun j => if j = m then c else 0)).sum = 0 := by
    rw [sum_onehot K m c hm]
    exact ne_of_gt hc
  have hlognn : 0 ≤ Real.logb 2 K :=
    Real.logb_nonneg one_lt_two (by exact_mod_cast Nat.one_le_cast.mpr (by omega))
  unfold wmEntropy
  rw [hany]
  simp only [Bool.false_eq_true, if_false, List.length_map, List.length_range]
  rw [entropyCalc_onehot K m c hm hc, if_neg (by omega), if_neg hsum,
    if_pos hlognn, if_pos (le_refl (0 : ℝ))]

/-- A row loop whose every row succeeds returns the list of row results. -/
theorem exceptMapList_ok {α β : Type} (f : α → Except Unit β) (g : α → β)
    (l : List α) (h : ∀ x ∈ l, f x = Except.ok (g x)) :
    exceptMapList f l = Except.ok (l.map g) := by
  induction l with
  | nil => rfl
  | cons x xs ih =>
    unfold exceptMapList
    rw [h x (List.mem_cons_self x xs),
      ih (fun y hy => h y (List.mem_cons_of_mem x hy))]
    rfl

/-- Zipping two constant lists of equal length. -/
theorem zip_replicate_same {α β : Type} (n : Nat) (a : α) (b : β) :
    (List.replicate n a).zip (List.replicate n b) = List.replicate n (a, b) := by
  induction n with
  | zero => rfl
  | succ k ih =>
    simp only [List.replicate_succ, List.zip_cons_cons, ih]

/-- Row-mass distribution of the uniform matrix: the uniform distribution. -/
theorem mu_uniform (K : Nat) (c : ℚ) (hK : 2 ≤ K) (hc : 0 < c) :
    (uniformMat K c).map
        (fun row => row.sum / ((uniformMat K c).map List.sum).sum)
      = List.replicate K ((K : ℚ))⁻¹ := by
  have hKQ : ((K : ℚ)) ≠ 0 := Nat.cast_ne_zero.mpr (by omega)
  unfold uniformMat
  rw [List.map_replicate, sum_replicate_q, List.map_replicate, sum_replicate_q]
  congr 1
  rw [sum_replicate_q]
  field_simp
  ring

/-- Total mass of the uniform matrix is positive. -/
theorem total_uniform_pos (K : Nat) (c : ℚ) (hK : 2 ≤ K) (hc : 0 < c) :
    0 < ((uniformMat K c).map List.sum).sum := by
  have hKQ : (0 : ℚ) < K := by
    exact_mod_cast Nat.pos_of_ne_zero (by omega)
  unfold uniformMat
  rw [List.map_replicate, sum_replicate_q, sum_replicate_q]
  positivity

/-- Row sums of the permutation matrix: each row carries mass `c`. -/
theorem rowsums_perm (K : Nat) (σ : Nat → Nat) (c : ℚ)
    (hσ : ∀ i, i < K → σ i < K) :
    (permMat K σ c).map List.sum = List.replicate K c := by
  unfold permMat
  rw [List.map_map]
  have hcongr : (List.range K).map
      (List.sum ∘ fun i => (List.range K).map (fun j => if j = σ i then c else 0))
      = (List.range K).map (fun _ => c) :=
    List.map_congr_left (fun i hi => sum_onehot K (σ i) c (hσ i (List.mem_range.mp hi)))
  rw [hcongr, List.map_const', List.length_range]

/-- Row-mass distribution of the permutation matrix: the uniform
distribution. -/
theorem mu_perm (K : Nat) (σ : Nat → Nat) (c : ℚ) (hK : 2 ≤ K) (hc : 0 < c)
    (hσ : ∀ i, i < K → σ i < K) :
    (permMat K σ c).map
        (fun row => row.sum / ((permMat K σ c).map List.sum).sum)
      = List.replicate K ((K : ℚ))⁻¹ := by
  have hKQ : ((K : ℚ)) ≠ 0 := Nat.cast_ne_zero.mpr (by omega)
  rw [rowsums_perm K σ c hσ, sum_replicate_q]
  unfold permMat
  rw [List.map_map]
  have hcongr : (List.range K).map
      ((fun row => row.sum / ((K : ℚ) * c))
        ∘ fun i => (List.range K).map (fun j => if j = σ i then c else 0))
      = (List.range K).map (fun _ => ((K : ℚ))⁻¹) :=
    List.map_congr_left (fun i hi => by
      simp only [Function.comp]
      rw [sum_onehot K (σ i) c (hσ i (List.mem_range.mp hi))]
      field_simp
      ring)
  rw [hcongr, List.map_const', List.length_range]

/-- Matrix entropy of the uniform matrix: `log2 K`. -/
theorem matrixEntropy_uniform (K : Nat) (c : ℚ) (hK : 2 ≤ K) (hc : 0 < c) :
    matrixEntropy (uniformMat K c) false = Except.ok (Real.logb 2 K) := by
  have hKQ : ((K : ℚ)) ≠ 0 := Nat.cast_ne_zero.mpr (by omega)
  have hKR : ((K : ℝ)) ≠ 0 := Nat.cast_ne_zero.mpr (by omega)
  unfold matrixEntropy
  rw [exceptMapList_ok (fun row => wmEntropy row false false)
    (fun _ => Real.logb 2 K) (uniformMat K c)
    (fun row hrow => by
      rw [show row = List.replicate K c from List.eq_of_mem_replicate hrow]
      exact wmEntropy_const K c hK hc false)]
  rw [mu_uniform K c hK hc]
  simp only [Except.map]
  unfold uniformMat
  rw [List.map_replicate, zip_replicate_same, List.map_replicate,
    List.sum_replicate, nsmul_eq_mul]
  congr 1
  push_cast
  field_simp

/-- Matrix entropy of the permutation matrix: `0`. -/
theorem matrixEntropy_perm (K : Nat) (σ : Nat → Nat) (c : ℚ) (hK : 2 ≤ K)
    (hc : 0 < c) (hσ : ∀ i, i < K → σ i < K) :
    matrixEntropy (permMat K σ c) false = Except.ok 0 := by
  unfold matrixEntropy
  rw [exceptMapList_ok (fun row => wmEntropy row false false)
    (fun _ => (0 : ℝ)) (permMat K σ c)
    (fun row hrow => by
      simp only [permMat, List.mem_map] at hrow
      obtain ⟨i, hi, hrow'⟩ := hrow
      rw [← hrow']
      exact wmEntropy_onehot K (σ i) c
        (hσ i (List.mem_range.mp hi)) hK hc false)]
  rw [mu_perm K σ c hK hc hσ]
  simp only [Except.map]
  congr 1
  refine List.sum_eq_zero (fun x hx => ?_)
  rw [List.mem_map] at hx
  obtain ⟨p, hp, hval⟩ := hx
  have hsnd : p.2 = 0 := by
    have hmem := List.of_mem_zip (by
      rw [show p = (p.1, p.2) from rfl] at hp
      exact hp)
    obtain ⟨-, h2⟩ := hmem
    rw [List.mem_map] at h2
    obtain ⟨-, -, hval2⟩ := h2
    exact hval2.symm
  rw [← hval, hsnd, mul_zero]

/-- C6: for every `K ≥ 2` and positive count `c`, the mutual information of
the `K × K` matrix with all entries equal to `c` (uniform rows, no structure)
is `0`, and the mutual information of the matrix carrying the identical
positive count `c` on each entry of a permutation `σ` of the `K` states and
zero elsewhere is `log2 K`. -/
theorem claim_C6_mutual_information_extremes (K : Nat) (c : ℚ) (σ : Nat → Nat)
    (hK : 2 ≤ K) (hc : 0 < c) (hσ : ∀ i, i < K → σ i < K)
    (_hinj : ∀ i j, i < K → j < K → σ i = σ j → i = j) :
    mutualInformation (uniformMat K c) = Except.ok 0
    ∧ mutualInformation (permMat K σ c) = Except.ok (Real.logb 2 K) := by
  have hKQpos : (0 : ℚ) < K := by
    exact_mod_cast Nat.pos_of_ne_zero (by omega)
  have hinvpos : 0 < ((K : ℚ))⁻¹ := inv_pos.mpr hKQpos
  constructor
  · unfold mutualInformation
    rw [if_neg (not_not_intro (total_uniform_pos K c hK hc))]
    rw [mu_uniform K c hK hc, wmEntropy_const K ((K : ℚ))⁻¹ hK hinvpos false,
      matrixEntropy_uniform K c hK hc]
    simp [Except.bind, Except.map]
  · have htot : 0 < ((permMat K σ c).map List.sum).sum := by
      rw [rowsums_perm K σ c hσ, sum_replicate_q]
      positivity
    unfold mutualInformation
    rw [if_neg (not_not_intro htot)]
    rw [mu_perm K σ c hK hc hσ, wmEntropy_const K ((K : ℚ))⁻¹ hK hinvpos false,
      matrixEntropy_perm K σ c hK hc hσ]
    simp [Except.bind, Except.map]

/-- Witness for C6: the `2 × 2` all-ones matrix has mutual information `0`
and the identity-permutation matrix with count `1` has mutual information
`log2 2`. -/
theorem claim_C6_witness :
    mutualInformation (uniformMat 2 1) = Except.ok 0
    ∧ mutualInformation (permMat 2 (fun i => i) 1) = Except.ok (Real.logb 2 2) := by
  have h := claim_C6_mutual_information_extremes 2 1 (fun i => i)
    (by omega) (by norm_num) (fun i hi => hi) (fun i j _ _ hij => hij)
  refine ⟨h.1, ?_⟩
  exact_mod_cast h.2

end Worldmodel
